import Mathlib

/-!
Verification of the rotating, self-cleaning file appender
(`src/appender/file.rs` of the ftlog repository).

The Rust code is shallowly embedded: calendar timestamps become an explicit
`DateTime` structure over `Int` fields, paths become a directory plus an
optional file-name component, the filesystem effects of the cleaner and of
the write path become explicit inputs (directory listings, success flags),
and panics become `none` results.
-/

namespace Ftlog

/-- Log rotation frequency (`Period` in `src/appender/file.rs`). -/
inductive Period where
  | Minute
  | Hour
  | Day
  | Month
  | Year
deriving DecidableEq, Repr

/-- Timezone policy (`LogTimezone`): local offset, UTC, or a fixed offset. -/
inductive LogTimezone where
  | Local
  | Utc
  | Fixed (offset : Int)
deriving DecidableEq, Repr

/-- An offset timestamp, embedding the `time` crate's `OffsetDateTime` at
second granularity: civil calendar fields plus the UTC offset (in seconds). -/
structure DateTime where
  year : Int
  month : Int
  day : Int
  hour : Int
  minute : Int
  second : Int
  offset : Int
deriving DecidableEq, Repr

/-- Proleptic-Gregorian leap year test, as in the `time` crate. -/
def isLeap (y : Int) : Bool :=
  y % 4 = 0 && (y % 100 != 0 || y % 400 = 0)

/-- Number of days of month `m` of year `y` (proleptic Gregorian). -/
def daysInMonth (y m : Int) : Int :=
  if m = 1 then 31
  else if m = 2 then (if isLeap y then 29 else 28)
  else if m = 3 then 31
  else if m = 4 then 30
  else if m = 5 then 31
  else if m = 6 then 30
  else if m = 7 then 31
  else if m = 8 then 31
  else if m = 9 then 30
  else if m = 10 then 31
  else if m = 11 then 30
  else if m = 12 then 31
  else 0

/-- A structurally valid civil timestamp: month, day, and time-of-day fields
are inside their calendar ranges. -/
def Valid (t : DateTime) : Prop :=
  1 ≤ t.month ∧ t.month ≤ 12 ∧ 1 ≤ t.day ∧ t.day ≤ daysInMonth t.year t.month ∧
  0 ≤ t.hour ∧ t.hour ≤ 23 ∧ 0 ≤ t.minute ∧ t.minute ≤ 59 ∧
  0 ≤ t.second ∧ t.second ≤ 59

instance (t : DateTime) : Decidable (Valid t) := by
  unfold Valid; infer_instance

/-- Calendar successor of a civil date, embedding
`date.with_time(MIDNIGHT) + Duration::DAY` of the `time` crate. -/
def nextDate (y m d : Int) : Int × Int × Int :=
  if d < daysInMonth y m then (y, m, d + 1)
  else if m < 12 then (y, m + 1, 1)
  else (y + 1, 1, 1)

/-- `FileAppender::next`: the start of the next period strictly after `now`,
in `now`'s offset (translated case by case from the Rust `match`). -/
def FileAppender.next (now : DateTime) (period : Period) : DateTime :=
  match period with
  | .Year => ⟨now.year + 1, 1, 1, 0, 0, 0, now.offset⟩
  | .Month =>
      let year := if now.month = 12 then now.year + 1 else now.year
      let m := if now.month = 12 then 1 else now.month + 1
      ⟨year, m, 1, 0, 0, 0, now.offset⟩
  | .Day =>
      let d := nextDate now.year now.month now.day
      ⟨d.1, d.2.1, d.2.2, 0, 0, 0, now.offset⟩
  | .Hour =>
      if now.hour < 23 then
        ⟨now.year, now.month, now.day, now.hour + 1, 0, 0, now.offset⟩
      else
        let d := nextDate now.year now.month now.day
        ⟨d.1, d.2.1, d.2.2, 0, 0, 0, now.offset⟩
  | .Minute =>
      if now.minute < 59 then
        ⟨now.year, now.month, now.day, now.hour, now.minute + 1, 0, now.offset⟩
      else if now.hour < 23 then
        ⟨now.year, now.month, now.day, now.hour + 1, 0, 0, now.offset⟩
      else
        let d := nextDate now.year now.month now.day
        ⟨d.1, d.2.1, d.2.2, 0, 0, 0, now.offset⟩

/-- A mixed-radix linearization of the civil fields.  The radixes (13 months,
32 days, 24 hours, 60/60) strictly dominate the field bounds, so on valid
timestamps `key` is strictly monotone with civil (same-offset chronological)
order. -/
def key (t : DateTime) : Int :=
  ((((t.year * 13 + t.month) * 32 + t.day) * 24 + t.hour) * 60 + t.minute) * 60
    + t.second

/-- Modelled from the spec: a timestamp is at (the start of) a period
boundary when the sub-period fields are at their minimum. -/
def alignedAt (p : Period) (t : DateTime) : Prop :=
  match p with
  | .Minute => t.second = 0
  | .Hour => t.minute = 0 ∧ t.second = 0
  | .Day => t.hour = 0 ∧ t.minute = 0 ∧ t.second = 0
  | .Month => t.day = 1 ∧ t.hour = 0 ∧ t.minute = 0 ∧ t.second = 0
  | .Year => t.month = 1 ∧ t.day = 1 ∧ t.hour = 0 ∧ t.minute = 0 ∧ t.second = 0

instance (p : Period) (t : DateTime) : Decidable (alignedAt p t) :=
  match p with
  | .Minute => inferInstanceAs (Decidable (t.second = 0))
  | .Hour => inferInstanceAs (Decidable (_ ∧ _))
  | .Day => inferInstanceAs (Decidable (_ ∧ _ ∧ _))
  | .Month => inferInstanceAs (Decidable (_ ∧ _ ∧ _ ∧ _))
  | .Year => inferInstanceAs (Decidable (_ ∧ _ ∧ _ ∧ _ ∧ _))

theorem daysInMonth_bounds (y m : Int) (h1 : 1 ≤ m) (h2 : m ≤ 12) :
    28 ≤ daysInMonth y m ∧ daysInMonth y m ≤ 31 := by
  interval_cases m <;> simp [daysInMonth] <;> split_ifs <;> omega

/-- Mixed-radix linearization of a civil date (the date part of `key`). -/
def dkey (y m d : Int) : Int := (y * 13 + m) * 32 + d

theorem daysInMonth_jan (y : Int) : daysInMonth y 1 = 31 := by
  norm_num [daysInMonth]

theorem nextDate_valid (y m d : Int) (hm : 1 ≤ m) (hm2 : m ≤ 12)
    (hd : 1 ≤ d) (hd2 : d ≤ daysInMonth y m) :
    1 ≤ (nextDate y m d).2.1 ∧ (nextDate y m d).2.1 ≤ 12 ∧
    1 ≤ (nextDate y m d).2.2 ∧
    (nextDate y m d).2.2 ≤ daysInMonth (nextDate y m d).1 (nextDate y m d).2.1 := by
  have h1 := daysInMonth_bounds y m hm hm2
  unfold nextDate
  split_ifs with hc1 hc2 <;> dsimp only
  · exact ⟨hm, hm2, by omega, by omega⟩
  · have h2 := daysInMonth_bounds y (m + 1) (by omega) (by omega)
    exact ⟨by omega, by omega, by omega, by omega⟩
  · refine ⟨by omega, by omega, by omega, ?_⟩
    rw [daysInMonth_jan]; omega

theorem nextDate_dkey_gt (y m d : Int) (hm : 1 ≤ m) (hm2 : m ≤ 12)
    (hd : 1 ≤ d) (hd2 : d ≤ daysInMonth y m) :
    dkey y m d < dkey (nextDate y m d).1 (nextDate y m d).2.1 (nextDate y m d).2.2 := by
  have h1 := daysInMonth_bounds y m hm hm2
  unfold nextDate dkey
  split_ifs <;> dsimp only <;> omega

/-- The calendar successor is the least valid date strictly above the current
one, in `dkey` order. -/
theorem dkey_nextDate_le (y m d b1 b2 b3 : Int)
    (hm : 1 ≤ m) (hm2 : m ≤ 12) (hd : 1 ≤ d) (hd2 : d ≤ daysInMonth y m)
    (hbm : 1 ≤ b2) (hbm2 : b2 ≤ 12) (hbd : 1 ≤ b3) (hbd2 : b3 ≤ daysInMonth b1 b2)
    (hlt : dkey y m d < dkey b1 b2 b3) :
    dkey (nextDate y m d).1 (nextDate y m d).2.1 (nextDate y m d).2.2 ≤
      dkey b1 b2 b3 := by
  have ha := daysInMonth_bounds y m hm hm2
  have hb := daysInMonth_bounds b1 b2 hbm hbm2
  unfold nextDate dkey at *
  split_ifs with h1 h2 <;> dsimp only
  · omega
  · by_cases hby : b1 = y
    · by_cases hbm' : b2 = m
      · rw [hby, hbm'] at hbd2; omega
      · omega
    · omega
  · by_cases hby : b1 = y
    · by_cases hbm' : b2 = m
      · rw [hby, hbm'] at hbd2; omega
      · omega
    · omega

/-- `FileAppender::next` is strictly in the future, keeps the offset, is a
valid timestamp, sits on a period boundary, and is the earliest boundary
strictly after `now`. -/
theorem next_spec (t : DateTime) (p : Period) (h : Valid t) :
    key t < key (FileAppender.next t p) ∧
    (FileAppender.next t p).offset = t.offset ∧
    Valid (FileAppender.next t p) ∧
    alignedAt p (FileAppender.next t p) ∧
    ∀ b : DateTime, Valid b → alignedAt p b → key t < key b →
      key (FileAppender.next t p) ≤ key b := by
  unfold Valid at h
  obtain ⟨hm1, hm2, hd1, hd2, hh1, hh2, hmi1, hmi2, hs1, hs2⟩ := h
  have hdim := daysInMonth_bounds t.year t.month hm1 hm2
  have hnv := nextDate_valid t.year t.month t.day hm1 hm2 hd1 hd2
  have hng := nextDate_dkey_gt t.year t.month t.day hm1 hm2 hd1 hd2
  cases p
  case Year =>
    simp only [FileAppender.next]
    refine ⟨?_, by simp, ?_, ?_, ?_⟩
    · simp only [key]; omega
    · unfold Valid; dsimp only; rw [daysInMonth_jan]; norm_num
    · exact ⟨rfl, rfl, rfl, rfl, rfl⟩
    · intro b hb hba hk
      unfold Valid at hb
      obtain ⟨bm1, bm2, bd1, bd2, bh1, bh2, bmi1, bmi2, bs1, bs2⟩ := hb
      obtain ⟨ab1, ab2, ab3, ab4, ab5⟩ := hba
      simp only [key] at hk ⊢
      omega
  case Month =>
    simp only [FileAppender.next]
    split_ifs with h12
    · refine ⟨?_, by simp, ?_, ?_, ?_⟩
      · simp only [key]; omega
      · unfold Valid; dsimp only; rw [daysInMonth_jan]; norm_num
      · exact ⟨rfl, rfl, rfl, rfl⟩
      · intro b hb hba hk
        unfold Valid at hb
        obtain ⟨bm1, bm2, bd1, bd2, bh1, bh2, bmi1, bmi2, bs1, bs2⟩ := hb
        obtain ⟨ab1, ab2, ab3, ab4⟩ := hba
        simp only [key] at hk ⊢
        omega
    · refine ⟨?_, by simp, ?_, ?_, ?_⟩
      · simp only [key]; omega
      · have h2 := daysInMonth_bounds t.year (t.month + 1) (by omega) (by omega)
        unfold Valid; dsimp only; omega
      · exact ⟨rfl, rfl, rfl, rfl⟩
      · intro b hb hba hk
        unfold Valid at hb
        obtain ⟨bm1, bm2, bd1, bd2, bh1, bh2, bmi1, bmi2, bs1, bs2⟩ := hb
        obtain ⟨ab1, ab2, ab3, ab4⟩ := hba
        simp only [key] at hk ⊢
        omega
  case Day =>
    simp only [FileAppender.next]
    refine ⟨?_, by simp, ?_, ?_, ?_⟩
    · simp only [key]; unfold dkey at hng; omega
    · unfold Valid; dsimp only; omega
    · exact ⟨rfl, rfl, rfl⟩
    · intro b hb hba hk
      unfold Valid at hb
      obtain ⟨bm1, bm2, bd1, bd2, bh1, bh2, bmi1, bmi2, bs1, bs2⟩ := hb
      obtain ⟨ab1, ab2, ab3⟩ := hba
      have hdk : dkey t.year t.month t.day < dkey b.year b.month b.day := by
        unfold dkey; simp only [key] at hk; omega
      have hle := dkey_nextDate_le t.year t.month t.day b.year b.month b.day
        hm1 hm2 hd1 hd2 bm1 bm2 bd1 bd2 hdk
      unfold dkey at hle
      simp only [key]
      omega
  case Hour =>
    simp only [FileAppender.next]
    split_ifs with h23
    · refine ⟨?_, by simp, ?_, ?_, ?_⟩
      · simp only [key]; omega
      · unfold Valid; dsimp only; omega
      · exact ⟨rfl, rfl⟩
      · intro b hb hba hk
        unfold Valid at hb
        obtain ⟨bm1, bm2, bd1, bd2, bh1, bh2, bmi1, bmi2, bs1, bs2⟩ := hb
        obtain ⟨ab1, ab2⟩ := hba
        simp only [key] at hk ⊢
        omega
    · refine ⟨?_, by simp, ?_, ?_, ?_⟩
      · simp only [key]; unfold dkey at hng; omega
      · unfold Valid; dsimp only; omega
      · exact ⟨rfl, rfl⟩
      · intro b hb hba hk
        unfold Valid at hb
        obtain ⟨bm1, bm2, bd1, bd2, bh1, bh2, bmi1, bmi2, bs1, bs2⟩ := hb
        obtain ⟨ab1, ab2⟩ := hba
        have hdk : dkey t.year t.month t.day < dkey b.year b.month b.day := by
          unfold dkey; simp only [key] at hk; omega
        have hle := dkey_nextDate_le t.year t.month t.day b.year b.month b.day
          hm1 hm2 hd1 hd2 bm1 bm2 bd1 bd2 hdk
        unfold dkey at hle
        simp only [key]
        omega
  case Minute =>
    simp only [FileAppender.next]
    split_ifs with h59 h23
    · refine ⟨?_, by simp, ?_, ?_, ?_⟩
      · simp only [key]; omega
      · unfold Valid; dsimp only; omega
      · exact rfl
      · intro b hb hba hk
        unfold Valid at hb
        obtain ⟨bm1, bm2, bd1, bd2, bh1, bh2, bmi1, bmi2, bs1, bs2⟩ := hb
        simp only [alignedAt] at hba
        simp only [key] at hk ⊢
        omega
    · refine ⟨?_, by simp, ?_, ?_, ?_⟩
      · simp only [key]; omega
      · unfold Valid; dsimp only; omega
      · exact rfl
      · intro b hb hba hk
        unfold Valid at hb
        obtain ⟨bm1, bm2, bd1, bd2, bh1, bh2, bmi1, bmi2, bs1, bs2⟩ := hb
        simp only [alignedAt] at hba
        simp only [key] at hk ⊢
        omega
    · refine ⟨?_, by simp, ?_, ?_, ?_⟩
      · simp only [key]; unfold dkey at hng; omega
      · unfold Valid; dsimp only; omega
      · exact rfl
      · intro b hb hba hk
        unfold Valid at hb
        obtain ⟨bm1, bm2, bd1, bd2, bh1, bh2, bmi1, bmi2, bs1, bs2⟩ := hb
        simp only [alignedAt] at hba
        have hdk : dkey t.year t.month t.day < dkey b.year b.month b.day := by
          unfold dkey; simp only [key] at hk; omega
        have hle := dkey_nextDate_le t.year t.month t.day b.year b.month b.day
          hm1 hm2 hd1 hd2 bm1 bm2 bd1 bd2 hdk
        unfold dkey at hle
        simp only [key]
        omega

/-- Rust's `char::is_ascii_digit`. -/
def isAsciiDigit (c : Char) : Bool :=
  48 ≤ c.toNat && c.toNat ≤ 57

/-- Decimal rendering of a natural number, as Rust's `format` does. -/
def natDecimal (n : Nat) : List Char :=
  if n = 0 then ['0'] else (Nat.digits 10 n).reverse.map Nat.digitChar

/-- Decimal rendering of an `i32`, as `format` renders `dt.year()`. -/
def intDecimal (i : Int) : List Char :=
  if i < 0 then '-' :: natDecimal i.natAbs else natDecimal i.toNat

/-- Two-digit zero padding, as the format string `\x7b:02\x7d` renders the
month, day, hour and minute fields. -/
def pad2 (i : Int) : List Char :=
  if i.toNat < 10 then '0' :: natDecimal i.toNat else natDecimal i.toNat

/-- The timestamp token `ts` built inside `FileAppender::file` for the
current wall time `dt`, per period. -/
def FileAppender.token (dt : DateTime) (p : Period) : List Char :=
  match p with
  | .Year => intDecimal dt.year
  | .Month => intDecimal dt.year ++ pad2 dt.month
  | .Day => intDecimal dt.year ++ pad2 dt.month ++ pad2 dt.day
  | .Hour =>
      intDecimal dt.year ++ pad2 dt.month ++ pad2 dt.day ++ ['T'] ++ pad2 dt.hour
  | .Minute =>
      intDecimal dt.year ++ pad2 dt.month ++ pad2 dt.day ++ ['T'] ++ pad2 dt.hour
        ++ pad2 dt.minute

/-- Split a character list at the LAST occurrence of `c`
(Rust's `str::rsplit_once`). -/
def rsplitOnce (c : Char) : List Char → Option (List Char × List Char)
  | [] => none
  | x :: xs =>
      match rsplitOnce c xs with
      | some (b, a) => some (x :: b, a)
      | none => if x = c then some ([], xs) else none

/-- Rust `Path::file_stem` / `Path::extension` on a file name: split at the
last dot, except that a dot in first position does not count. -/
def fileStemExt (name : List Char) : List Char × Option (List Char) :=
  match rsplitOnce '.' name with
  | none => (name, none)
  | some (b, a) => if b = [] then (name, none) else (b, some a)

/-- A filesystem path: an (inert) parent-directory part plus an optional
file-name component (`none` embeds Rust's `file_name() == None`). -/
structure PathModel where
  dir : List Char
  fname : Option (List Char)
deriving DecidableEq, Repr

/-- `FileAppender::file`: derive the rotated path from the base path, the
period and the current wall time in the resolved offset.  `with_file_name`
keeps the parent directory. -/
def FileAppender.derivePath (p : PathModel) (period : Period) (dt : DateTime) :
    PathModel :=
  let ts := FileAppender.token dt period
  match p.fname with
  | none => { p with fname := some (String.toList "log" ++ '-' :: ts) }
  | some n =>
      match fileStemExt n with
      | (stem, some ext) => { p with fname := some (stem ++ '-' :: ts ++ '.' :: ext) }
      | (_, none) => { p with fname := some (n ++ '-' :: ts) }

/-- The per-character check inside `clean_expire_log`'s filter: index 8 must
be `'T'`, every other index an ASCII digit. -/
def checkTok : Nat → List Char → Bool
  | _, [] => true
  | ix, c :: rest =>
      (if ix = 8 then c = 'T' else isAsciiDigit c) && checkTok (ix + 1) rest

/-- The token-length test of `clean_expire_log`, per rotation period. -/
def tokenLenOk (p : Period) (time : List Char) : Bool :=
  match p with
  | .Minute => time.length = 13
  | .Hour => time.length = 11
  | .Day => time.length = 8
  | .Month => time.length = 6
  | .Year => time.length = 4

/-- The candidate filter of `clean_expire_log`: strip the entry name's final
extension, split at the last `-`, and require the period's token shape and
the base path's file stem. -/
def isCandidate (base : PathModel) (p : Period) (name : List Char) : Bool :=
  match rsplitOnce '-' (fileStemExt name).1 with
  | some (stem, time) =>
      tokenLenOk p time && checkTok 0 time &&
        (match base.fname with
         | some bn => decide ((fileStemExt bn).1 = stem)
         | none => false)
  | none => false

/-- `Vec::join(", ")`. -/
def joinComma : List (List Char) → List Char
  | [] => []
  | [x] => x
  | x :: y :: xs => x ++ ',' :: ' ' :: joinComma (y :: xs)

/-- A directory entry as the cleaner observes it: the file name, the result
of `file_type().map(is_file)` (`none` embeds an errored call), the modified
timestamp when readable, and whether `remove_file` would succeed. -/
structure DirEntry where
  name : List Char
  isFileOk : Option Bool
  modified : Option Int
  removeOk : Bool
deriving DecidableEq, Repr

/-- The age filter of `clean_expire_log`:
`modified.elapsed().map(|e| e > keep).unwrap_or(false)`, with `elapsed`
failing when the modified time is in the future of `now`. -/
def expireOld (now keep : Int) (e : DirEntry) : Bool :=
  match e.modified with
  | none => false
  | some m => if m ≤ now then decide (keep < now - m) else false

/-- The entries `clean_expire_log` deletes: readable entries that are files,
match the naming pattern, are older than `keep`, and whose removal succeeds. -/
def removedEntries (base : PathModel) (p : Period) (keep now : Int)
    (es : List (Option DirEntry)) : List DirEntry :=
  ((((es.filterMap id).filter fun e => e.isFileOk.getD false).filter
      fun e => isCandidate base p e.name).filter (expireOld now keep)).filter
    (·.removeOk)

/-- `clean_expire_log`: scan the directory listing (`none` embeds a failed
`read_dir`, whose `unwrap` panics), delete expired candidates, and report
the comma-joined deleted names. -/
def cleanExpireLog (base : PathModel) (p : Period) (keep now : Int)
    (listing : Option (List (Option DirEntry))) : Option (List Char) :=
  match listing with
  | none => none
  | some es => some (joinComma ((removedEntries base p keep now es).map (·.name)))

/-- Days since the Unix epoch of a civil date (proleptic Gregorian),
embedding the `time` crate's date linearization. -/
def daysFromCivil (y m d : Int) : Int :=
  let y2 := if m ≤ 2 then y - 1 else y
  let era := (if 0 ≤ y2 then y2 else y2 - 399) / 400
  let yoe := y2 - era * 400
  let mp := (m + 9) % 12
  let doy := (153 * mp + 2) / 5 + d - 1
  let doe := yoe * 365 + yoe / 4 - yoe / 100 + doy
  era * 146097 + doe - 719468

/-- Seconds since the Unix epoch of an offset timestamp (what comparing and
subtracting `OffsetDateTime`s measures). -/
def epochSecs (t : DateTime) : Int :=
  daysFromCivil t.year t.month t.day * 86400 + t.hour * 3600 + t.minute * 60
    + t.second - t.offset

/-- `FileAppender::until`: the monotonic instant `now` paired with the wall
duration until the next boundary after `tmNow`. -/
def FileAppender.until (now : Int) (tmNow : DateTime) (period : Period) :
    Int × Int :=
  (now, epochSecs (FileAppender.next tmNow period) - epochSecs tmNow)

/-- Rotation state (`Rotate`): monotonic start instant, wall duration to
wait, period, and the optional expiry duration. -/
structure Rotate where
  start : Int
  wait : Int
  period : Period
  expire : Option Int
deriving Repr

/-- The sink state (`FileAppender`): the current open handle (abstracted to
an identifier), the base path, the optional rotation state, the timezone. -/
structure FileAppender where
  file : Nat
  path : PathModel
  rotate : Option Rotate
  timezone : LogTimezone
deriving Repr

/-- Observable filesystem actions of the write path and of construction. -/
inductive Ev where
  | evFlush (h : Nat)
  | evOpen (p : PathModel) (h : Nat)
  | evSpawnClean
  | evClean
  | evNote (h : Nat)
  | evWrite (h : Nat) (n : Nat)
deriving DecidableEq, Repr

/-- `<FileAppender as Write>::write`, with the clocks and the fallible
filesystem calls as explicit inputs: `now` is the monotonic instant
(`start.elapsed() = now - start`), `tmNow` the wall time, `newId` the handle
a successful open would return, and the three flags whether flush, open and
`write_all` succeed.  Returns the final state with the count written
(`none` embeds an error or panic) plus the trace of attempted actions. -/
def appWrite (st : FileAppender) (recLen : Nat) (now : Int) (tmNow : DateTime)
    (newId : Nat) (flushOk openOk writeOk : Bool) :
    Option (FileAppender × Nat) × List Ev :=
  match st.rotate with
  | some r =>
      if r.wait < now - r.start then
        if flushOk then
          let path := FileAppender.derivePath st.path r.period tmNow
          let evs1 := Ev.evFlush st.file ::
            (if r.expire.isSome then [Ev.evSpawnClean] else [])
          if openOk then
            let sw := FileAppender.until now tmNow r.period
            let st' : FileAppender :=
              { file := newId, path := st.path,
                rotate := some ⟨sw.1, sw.2, r.period, r.expire⟩,
                timezone := st.timezone }
            if writeOk then
              (some (st', recLen), evs1 ++ [Ev.evOpen path newId, Ev.evWrite newId recLen])
            else
              (none, evs1 ++ [Ev.evOpen path newId, Ev.evWrite newId recLen])
          else (none, evs1 ++ [Ev.evOpen path newId])
        else (none, [Ev.evFlush st.file])
      else
        if writeOk then (some (st, recLen), [Ev.evWrite st.file recLen])
        else (none, [Ev.evWrite st.file recLen])
  | none =>
      if writeOk then (some (st, recLen), [Ev.evWrite st.file recLen])
      else (none, [Ev.evWrite st.file recLen])

/-- `FileAppenderBuilderBuilder::build` in the rotate-with-expire case:
compute `(start, wait)`, derive and open the initial rotated file, run the
cleaner synchronously once, and write a deletion note into the new file iff
the report is non-empty; a failed open, a cleaner panic, or a failed note
write aborts construction (`none`). -/
def buildRotateExpire (path : PathModel) (period : Period) (expire : Int)
    (tz : LogTimezone) (now : Int) (tmNow : DateTime) (newId : Nat)
    (openOk : Bool) (fsNow : Int) (listing : Option (List (Option DirEntry)))
    (noteOk : Bool) : Option FileAppender × List Ev :=
  let sw := FileAppender.until now tmNow period
  let p := FileAppender.derivePath path period tmNow
  if openOk then
    match cleanExpireLog path period expire fsNow listing with
    | none => (none, [Ev.evOpen p newId, Ev.evClean])
    | some delMsg =>
        if delMsg = [] then
          (some ⟨newId, path, some ⟨sw.1, sw.2, period, some expire⟩, tz⟩,
            [Ev.evOpen p newId, Ev.evClean])
        else if noteOk then
          (some ⟨newId, path, some ⟨sw.1, sw.2, period, some expire⟩, tz⟩,
            [Ev.evOpen p newId, Ev.evClean, Ev.evNote newId])
        else (none, [Ev.evOpen p newId, Ev.evClean, Ev.evNote newId])
  else (none, [Ev.evOpen p newId])

/-- The token length `clean_expire_log` expects for each period. -/
def expectedLen (p : Period) : Nat :=
  match p with
  | .Year => 4
  | .Month => 6
  | .Day => 8
  | .Hour => 11
  | .Minute => 13

/-- Left zero-padding to a given width. -/
def zeroPad (w : Nat) (l : List Char) : List Char :=
  List.replicate (w - l.length) '0' ++ l

/-- Modelled from the spec: the zero-padded timestamp token as §4.2 words it
(Year→YYYY, Month→YYYYMM, Day→YYYYMMDD, Hour→YYYYMMDDTHH,
Minute→YYYYMMDDTHHMM). -/
def specToken (dt : DateTime) (p : Period) : List Char :=
  let yyyy := zeroPad 4 (natDecimal dt.year.toNat)
  let mm := zeroPad 2 (natDecimal dt.month.toNat)
  let dd := zeroPad 2 (natDecimal dt.day.toNat)
  let hh := zeroPad 2 (natDecimal dt.hour.toNat)
  let mi := zeroPad 2 (natDecimal dt.minute.toNat)
  match p with
  | .Year => yyyy
  | .Month => yyyy ++ mm
  | .Day => yyyy ++ mm ++ dd
  | .Hour => yyyy ++ mm ++ dd ++ ['T'] ++ hh
  | .Minute => yyyy ++ mm ++ dd ++ ['T'] ++ hh ++ mi

/-- Modelled from the spec: the candidate condition as §4.3 words it — the
(extension-stripped) name splits at the last `-` into the base's file stem
and a token of the period's length whose characters are digits, except index
8 which must be `'T'` for Hour/Minute. -/
def specCandidate (base : PathModel) (p : Period) (name : List Char) : Prop :=
  ∃ stem time, rsplitOnce '-' (fileStemExt name).1 = some (stem, time) ∧
    (∃ bn, base.fname = some bn ∧ (fileStemExt bn).1 = stem) ∧
    time.length = expectedLen p ∧
    ∀ i (h : i < time.length),
      ((p = .Hour ∨ p = .Minute) ∧ i = 8 → time.get ⟨i, h⟩ = 'T') ∧
      (¬((p = .Hour ∨ p = .Minute) ∧ i = 8) →
        isAsciiDigit (time.get ⟨i, h⟩) = true)

theorem natDecimal_digits (n : Nat) (c : Char) (hc : c ∈ natDecimal n) :
    isAsciiDigit c = true := by
  unfold natDecimal at hc
  split_ifs at hc with h
  · simp only [List.mem_singleton] at hc
    subst hc; decide
  · simp only [List.mem_map, List.mem_reverse] at hc
    obtain ⟨d, hd, rfl⟩ := hc
    have hlt := Nat.digits_lt_base (by norm_num) hd
    unfold isAsciiDigit
    interval_cases d <;> decide

theorem natDecimal_length (n k : Nat) (h1 : 10 ^ k ≤ n) (h2 : n < 10 ^ (k + 1)) :
    (natDecimal n).length = k + 1 := by
  have hp : 0 < 10 ^ k := Nat.pos_pow_of_pos k (by norm_num)
  unfold natDecimal
  rw [if_neg (by omega), List.length_map, List.length_reverse,
    Nat.digits_len 10 n (by norm_num) (by omega),
    Nat.log_eq_of_pow_le_of_lt_pow h1 h2]

theorem natDecimal_len1 (n : Nat) (h : n < 10) : (natDecimal n).length = 1 := by
  rcases Nat.eq_zero_or_pos n with rfl | hp
  · rfl
  · exact natDecimal_length n 0 (by omega) (by simpa using h)

theorem pad2_length (i : Int) (h1 : 0 ≤ i) (h2 : i ≤ 99) :
    (pad2 i).length = 2 := by
  unfold pad2
  split_ifs with h
  · rw [List.length_cons, natDecimal_len1 _ h]
  · exact natDecimal_length i.toNat 1 (by omega) (by norm_num; omega)

theorem pad2_digits (i : Int) (c : Char) (hc : c ∈ pad2 i) :
    isAsciiDigit c = true := by
  unfold pad2 at hc
  split_ifs at hc with h
  · rcases List.mem_cons.mp hc with rfl | hc2
    · decide
    · exact natDecimal_digits _ _ hc2
  · exact natDecimal_digits _ _ hc

theorem intDecimal_nonneg (i : Int) (h : 0 ≤ i) :
    intDecimal i = natDecimal i.toNat := by
  unfold intDecimal
  rw [if_neg (by omega)]

theorem intDecimal_len4 (i : Int) (h1 : 1000 ≤ i) (h2 : i ≤ 9999) :
    (intDecimal i).length = 4 := by
  rw [intDecimal_nonneg i (by omega)]
  exact natDecimal_length i.toNat 3 (by omega) (by norm_num; omega)

theorem intDecimal_digits (i : Int) (h : 0 ≤ i) (c : Char)
    (hc : c ∈ intDecimal i) : isAsciiDigit c = true := by
  rw [intDecimal_nonneg i h] at hc
  exact natDecimal_digits _ _ hc

/-- Every character of a token is a digit or `'T'` (nonnegative years). -/
theorem token_chars (dt : DateTime) (p : Period) (hy : 0 ≤ dt.year) (c : Char)
    (hc : c ∈ FileAppender.token dt p) : isAsciiDigit c = true ∨ c = 'T' := by
  cases p <;>
    simp only [FileAppender.token, List.mem_append, List.mem_singleton] at hc
  case Year => exact Or.inl (intDecimal_digits _ hy _ hc)
  case Month =>
    rcases hc with hc | hc
    · exact Or.inl (intDecimal_digits _ hy _ hc)
    · exact Or.inl (pad2_digits _ _ hc)
  case Day =>
    rcases hc with (hc | hc) | hc
    · exact Or.inl (intDecimal_digits _ hy _ hc)
    · exact Or.inl (pad2_digits _ _ hc)
    · exact Or.inl (pad2_digits _ _ hc)
  case Hour =>
    rcases hc with (((hc | hc) | hc) | hc) | hc
    · exact Or.inl (intDecimal_digits _ hy _ hc)
    · exact Or.inl (pad2_digits _ _ hc)
    · exact Or.inl (pad2_digits _ _ hc)
    · exact Or.inr hc
    · exact Or.inl (pad2_digits _ _ hc)
  case Minute =>
    rcases hc with ((((hc | hc) | hc) | hc) | hc) | hc
    · exact Or.inl (intDecimal_digits _ hy _ hc)
    · exact Or.inl (pad2_digits _ _ hc)
    · exact Or.inl (pad2_digits _ _ hc)
    · exact Or.inr hc
    · exact Or.inl (pad2_digits _ _ hc)
    · exact Or.inl (pad2_digits _ _ hc)

theorem token_length (dt : DateTime) (p : Period) (h : Valid dt)
    (hy1 : 1000 ≤ dt.year) (hy2 : dt.year ≤ 9999) :
    (FileAppender.token dt p).length = expectedLen p := by
  unfold Valid at h
  obtain ⟨hm1, hm2, hd1, hd2, hh1, hh2, hmi1, hmi2, hs1, hs2⟩ := h
  have hdim := daysInMonth_bounds dt.year dt.month hm1 hm2
  have l1 := intDecimal_len4 dt.year hy1 hy2
  have l2 := pad2_length dt.month (by omega) (by omega)
  have l3 := pad2_length dt.day (by omega) (by omega)
  have l4 := pad2_length dt.hour (by omega) (by omega)
  have l5 := pad2_length dt.minute (by omega) (by omega)
  cases p <;>
    simp [FileAppender.token, expectedLen, l1, l2, l3, l4, l5]

theorem checkTok_append (a b : List Char) (ix : Nat) :
    checkTok ix (a ++ b) = (checkTok ix a && checkTok (ix + a.length) b) := by
  induction a generalizing ix with
  | nil => simp [checkTok]
  | cons x xs ih =>
      simp only [List.cons_append, checkTok, List.append_eq, ih (ix + 1),
        List.length_cons]
      rw [show ix + (xs.length + 1) = ix + 1 + xs.length from by omega,
        Bool.and_assoc]

theorem checkTok_digits (l : List Char) (ix : Nat)
    (hd : ∀ c ∈ l, isAsciiDigit c = true) (hr : 8 < ix ∨ ix + l.length ≤ 8) :
    checkTok ix l = true := by
  induction l generalizing ix with
  | nil => rfl
  | cons x xs ih =>
      simp only [checkTok, Bool.and_eq_true]
      constructor
      · rw [if_neg (by simp at hr ⊢; omega)]
        exact hd x (List.mem_cons_self x xs)
      · exact ih (ix + 1) (fun c hc => hd c (List.mem_cons_of_mem x hc))
          (by simp at hr ⊢; omega)

/-- The token produced by `FileAppender::file` passes the per-character
check of `clean_expire_log`. -/
theorem token_check (dt : DateTime) (p : Period) (h : Valid dt)
    (hy1 : 1000 ≤ dt.year) (hy2 : dt.year ≤ 9999) :
    checkTok 0 (FileAppender.token dt p) = true := by
  unfold Valid at h
  obtain ⟨hm1, hm2, hd1, hd2, hh1, hh2, hmi1, hmi2, hs1, hs2⟩ := h
  have hdim := daysInMonth_bounds dt.year dt.month hm1 hm2
  have l1 := intDecimal_len4 dt.year hy1 hy2
  have l2 := pad2_length dt.month (by omega) (by omega)
  have l3 := pad2_length dt.day (by omega) (by omega)
  have l4 := pad2_length dt.hour (by omega) (by omega)
  have l5 := pad2_length dt.minute (by omega) (by omega)
  have d1 := intDecimal_digits dt.year (by omega)
  have d2 := pad2_digits dt.month
  have d3 := pad2_digits dt.day
  have d4 := pad2_digits dt.hour
  have d5 := pad2_digits dt.minute
  cases p <;>
    simp only [FileAppender.token, checkTok_append, Bool.and_eq_true,
      List.length_append, List.length_singleton, l1, l2, l3, l4]
  case Year => exact checkTok_digits _ _ d1 (by rw [l1]; omega)
  case Month =>
    exact ⟨checkTok_digits _ _ d1 (by rw [l1]; omega),
      checkTok_digits _ _ d2 (by rw [l2]; omega)⟩
  case Day =>
    exact ⟨⟨checkTok_digits _ _ d1 (by rw [l1]; omega),
      checkTok_digits _ _ d2 (by rw [l2]; omega)⟩,
      checkTok_digits _ _ d3 (by rw [l3]; omega)⟩
  case Hour =>
    exact ⟨⟨⟨⟨checkTok_digits _ _ d1 (by rw [l1]; omega),
      checkTok_digits _ _ d2 (by rw [l2]; omega)⟩,
      checkTok_digits _ _ d3 (by rw [l3]; omega)⟩,
      by decide⟩,
      checkTok_digits _ _ d4 (by rw [l4]; omega)⟩
  case Minute =>
    exact ⟨⟨⟨⟨⟨checkTok_digits _ _ d1 (by rw [l1]; omega),
      checkTok_digits _ _ d2 (by rw [l2]; omega)⟩,
      checkTok_digits _ _ d3 (by rw [l3]; omega)⟩,
      by decide⟩,
      checkTok_digits _ _ d4 (by rw [l4]; omega)⟩,
      checkTok_digits _ _ d5 (by rw [l5]; omega)⟩

theorem rsplitOnce_eq_none (c : Char) (l : List Char) (h : c ∉ l) :
    rsplitOnce c l = none := by
  induction l with
  | nil => rfl
  | cons x xs ih =>
      have h1 : c ∉ xs := fun hx => h (List.mem_cons_of_mem x hx)
      have hxc : x ≠ c := by
        intro he; apply h; rw [he]; exact List.mem_cons_self c xs
      simp [rsplitOnce, ih h1, hxc]

theorem rsplitOnce_append (c : Char) (pre suf : List Char) (h : c ∉ suf) :
    rsplitOnce c (pre ++ c :: suf) = some (pre, suf) := by
  induction pre with
  | nil => simp [rsplitOnce, rsplitOnce_eq_none c suf h]
  | cons x xs ih => simp [rsplitOnce, ih]

theorem fileStemExt_ext (stem ext : List Char) (hs : stem ≠ [])
    (he : '.' ∉ ext) : fileStemExt (stem ++ '.' :: ext) = (stem, some ext) := by
  unfold fileStemExt
  rw [rsplitOnce_append '.' stem ext he]
  simp [hs]

theorem token_no_dash (dt : DateTime) (p : Period) (hy : 0 ≤ dt.year) :
    '-' ∉ FileAppender.token dt p := by
  intro hc
  rcases token_chars dt p hy '-' hc with h | h
  · exact absurd h (by decide)
  · exact absurd h (by decide)

theorem token_no_dot (dt : DateTime) (p : Period) (hy : 0 ≤ dt.year) :
    '.' ∉ FileAppender.token dt p := by
  intro hc
  rcases token_chars dt p hy '.' hc with h | h
  · exact absurd h (by decide)
  · exact absurd h (by decide)

theorem zeroPad_of_length (w : Nat) (l : List Char) (h : l.length = w) :
    zeroPad w l = l := by
  simp [zeroPad, h]

theorem pad2_eq_zeroPad (i : Int) (h1 : 0 ≤ i) (h2 : i ≤ 99) :
    pad2 i = zeroPad 2 (natDecimal i.toNat) := by
  unfold pad2
  split_ifs with h
  · rw [zeroPad, natDecimal_len1 _ h]; rfl
  · exact (zeroPad_of_length 2 _ (natDecimal_length i.toNat 1 (by omega)
      (by norm_num; omega))).symm

theorem intDecimal_eq_zeroPad (i : Int) (h1 : 1000 ≤ i) (h2 : i ≤ 9999) :
    intDecimal i = zeroPad 4 (natDecimal i.toNat) := by
  rw [intDecimal_nonneg i (by omega)]
  exact (zeroPad_of_length 4 _ (natDecimal_length i.toNat 3 (by omega)
    (by norm_num; omega))).symm

/-- On realistic inputs (four-digit years, valid fields) the token built by
`FileAppender::file` is exactly the zero-padded token the spec describes. -/
theorem token_eq_specToken (dt : DateTime) (p : Period) (h : Valid dt)
    (hy1 : 1000 ≤ dt.year) (hy2 : dt.year ≤ 9999) :
    FileAppender.token dt p = specToken dt p := by
  unfold Valid at h
  obtain ⟨hm1, hm2, hd1, hd2, hh1, hh2, hmi1, hmi2, hs1, hs2⟩ := h
  have hdim := daysInMonth_bounds dt.year dt.month hm1 hm2
  have e1 := intDecimal_eq_zeroPad dt.year hy1 hy2
  have e2 := pad2_eq_zeroPad dt.month (by omega) (by omega)
  have e3 := pad2_eq_zeroPad dt.day (by omega) (by omega)
  have e4 := pad2_eq_zeroPad dt.hour (by omega) (by omega)
  have e5 := pad2_eq_zeroPad dt.minute (by omega) (by omega)
  cases p <;> simp [FileAppender.token, specToken, e1, e2, e3, e4, e5]

theorem tokenLenOk_iff (p : Period) (l : List Char) :
    tokenLenOk p l = true ↔ l.length = expectedLen p := by
  cases p <;> simp [tokenLenOk, expectedLen]

theorem expectedLen_inj (p q : Period) : expectedLen p = expectedLen q ↔ p = q := by
  cases p <;> cases q <;> decide

/-- Index-wise reading of the `clean_expire_log` character check. -/
theorem checkTok_iff (l : List Char) (ix : Nat) :
    checkTok ix l = true ↔
      ∀ i (h : i < l.length),
        (ix + i = 8 → l.get ⟨i, h⟩ = 'T') ∧
        (ix + i ≠ 8 → isAsciiDigit (l.get ⟨i, h⟩) = true) := by
  induction l generalizing ix with
  | nil => simp [checkTok]
  | cons x xs ih =>
      simp only [checkTok, Bool.and_eq_true, ih (ix + 1)]
      constructor
      · rintro ⟨h1, h2⟩ i hi
        cases i with
        | zero =>
            constructor
            · intro h8
              rw [if_pos (by omega)] at h1
              simpa using h1
            · intro h8
              rw [if_neg (by omega)] at h1
              simpa using h1
        | succ j =>
            have hj : j < xs.length := by simpa using hi
            constructor
            · intro h8
              have := (h2 j hj).1 (by omega)
              simpa using this
            · intro h8
              have := (h2 j hj).2 (by omega)
              simpa using this
      · intro hq
        constructor
        · have h0 := hq 0 (by simp)
          by_cases h8 : ix = 8
          · rw [if_pos h8]
            simpa using h0.1 (by omega)
          · rw [if_neg h8]
            simpa using h0.2 (by omega)
        · intro j hj
          have hjs := hq (j + 1) (by simpa using hj)
          constructor
          · intro h8
            simpa using hjs.1 (by omega)
          · intro h8
            simpa using hjs.2 (by omega)

/-- C2: for every period and valid offset timestamp, `FileAppender::next` is
strictly greater, keeps the UTC offset, and is the earliest period-aligned
boundary strictly after the input (no aligned instant lies strictly
between); in particular Year yields January 1, 00:00:00 of the next year. -/
theorem c2_next_boundary (t : DateTime) (p : Period) (h : Valid t) :
    key t < key (FileAppender.next t p) ∧
    (FileAppender.next t p).offset = t.offset ∧
    alignedAt p (FileAppender.next t p) ∧
    Valid (FileAppender.next t p) ∧
    (∀ b : DateTime, Valid b → b.offset = t.offset → alignedAt p b →
      key t < key b → key (FileAppender.next t p) ≤ key b) ∧
    FileAppender.next t .Year = ⟨t.year + 1, 1, 1, 0, 0, 0, t.offset⟩ := by
  obtain ⟨h1, h2, h3, h4, h5⟩ := next_spec t p h
  exact ⟨h1, h2, h4, h3, fun b hb _ hba hk => h5 b hb hba hk, rfl⟩

theorem c2_next_boundary_witness :
    Valid ⟨2022, 10, 24, 16, 0, 0, 0⟩ ∧
    key ⟨2022, 10, 24, 16, 0, 0, 0⟩ <
      key (FileAppender.next ⟨2022, 10, 24, 16, 0, 0, 0⟩ .Day) :=
  ⟨by decide, (c2_next_boundary ⟨2022, 10, 24, 16, 0, 0, 0⟩ .Day (by decide)).1⟩

/-- C8: the concrete boundary values for 2022-10-24T16:00:00Z over all five
periods, the December month rollover, and the January 31 day rollover. -/
theorem c8_concrete_boundaries :
    FileAppender.next ⟨2022, 10, 24, 16, 0, 0, 0⟩ .Year = ⟨2023, 1, 1, 0, 0, 0, 0⟩ ∧
    FileAppender.next ⟨2022, 10, 24, 16, 0, 0, 0⟩ .Month = ⟨2022, 11, 1, 0, 0, 0, 0⟩ ∧
    FileAppender.next ⟨2022, 10, 24, 16, 0, 0, 0⟩ .Day = ⟨2022, 10, 25, 0, 0, 0, 0⟩ ∧
    FileAppender.next ⟨2022, 10, 24, 16, 0, 0, 0⟩ .Hour = ⟨2022, 10, 24, 17, 0, 0, 0⟩ ∧
    FileAppender.next ⟨2022, 10, 24, 16, 0, 0, 0⟩ .Minute = ⟨2022, 10, 24, 16, 1, 0, 0⟩ ∧
    FileAppender.next ⟨2022, 12, 1, 0, 0, 0, 0⟩ .Month = ⟨2023, 1, 1, 0, 0, 0, 0⟩ ∧
    FileAppender.next ⟨2023, 1, 31, 0, 0, 0, 0⟩ .Day = ⟨2023, 2, 1, 0, 0, 0, 0⟩ := by
  decide

set_option maxRecDepth 8000 in
/-- C1: for base path `mylog.log`, the rotated path built by
`FileAppender::file` for period `P` is recognized by the `clean_expire_log`
filter exactly for period `P` and for no other period. -/
theorem c1_naming_matching_roundtrip (dir : List Char) (dt : DateTime)
    (P Q : Period) (h : Valid dt) (hy1 : 1000 ≤ dt.year)
    (hy2 : dt.year ≤ 9999) :
    ∀ n, (FileAppender.derivePath ⟨dir, some (String.toList "mylog.log")⟩
        P dt).fname = some n →
      (isCandidate ⟨dir, some (String.toList "mylog.log")⟩ Q n = true ↔
        Q = P) := by
  intro n hn
  have hy0 : (0 : Int) ≤ dt.year := by omega
  have hfse : fileStemExt (String.toList "mylog.log") =
      (String.toList "mylog", some (String.toList "log")) := by decide
  simp only [FileAppender.derivePath, hfse] at hn
  have hn' : n = String.toList "mylog" ++ '-' ::
      (FileAppender.token dt P ++ '.' :: String.toList "log") :=
    (Option.some.inj hn).symm
  subst hn'
  have hdash := token_no_dash dt P hy0
  have hstem : fileStemExt (String.toList "mylog" ++ '-' ::
      (FileAppender.token dt P ++ '.' :: String.toList "log")) =
      (String.toList "mylog" ++ '-' :: FileAppender.token dt P,
        some (String.toList "log")) := by
    rw [show String.toList "mylog" ++ '-' ::
        (FileAppender.token dt P ++ '.' :: String.toList "log") =
        (String.toList "mylog" ++ '-' :: FileAppender.token dt P) ++
          '.' :: String.toList "log" from by simp]
    exact fileStemExt_ext _ _ (by simp) (by decide)
  have hsplit : rsplitOnce '-'
      (String.toList "mylog" ++ '-' :: FileAppender.token dt P) =
      some (String.toList "mylog", FileAppender.token dt P) :=
    rsplitOnce_append '-' _ _ hdash
  unfold isCandidate
  rw [hstem]
  dsimp only
  rw [hsplit]
  dsimp only
  rw [hfse]
  dsimp only
  rw [token_check dt P h hy1 hy2]
  rw [show (decide (String.toList "mylog" = String.toList "mylog")) = true from
    by decide]
  simp only [Bool.and_true, tokenLenOk_iff]
  rw [token_length dt P h hy1 hy2, expectedLen_inj]
  exact eq_comm

theorem c1_naming_matching_roundtrip_witness :
    Valid ⟨2022, 10, 26, 13, 51, 0, 0⟩ ∧
    (isCandidate ⟨[], some (String.toList "mylog.log")⟩ .Minute
        (String.toList "mylog-20221026T1351.log") = true ↔
      Period.Minute = Period.Minute) :=
  ⟨by decide,
    c1_naming_matching_roundtrip [] ⟨2022, 10, 26, 13, 51, 0, 0⟩
      .Minute .Minute (by decide) (by decide) (by decide) _
      (by simp [FileAppender.derivePath, FileAppender.token, intDecimal,
        natDecimal, pad2, fileStemExt, rsplitOnce, String.toList,
        Nat.digitChar])⟩

theorem period_of_len_gt8 (p : Period) (h : 8 < expectedLen p) :
    p = .Hour ∨ p = .Minute := by
  cases p <;> revert h <;> decide

/-- Under a matching token length, the code's character check agrees with
the spec's wording (digits everywhere, `'T'` at index 8 for Hour/Minute). -/
theorem checkTok_iff_spec (p : Period) (tok : List Char)
    (hlen : tok.length = expectedLen p) :
    checkTok 0 tok = true ↔
      ∀ i (h : i < tok.length),
        ((p = .Hour ∨ p = .Minute) ∧ i = 8 → tok.get ⟨i, h⟩ = 'T') ∧
        (¬((p = .Hour ∨ p = .Minute) ∧ i = 8) →
          isAsciiDigit (tok.get ⟨i, h⟩) = true) := by
  rw [checkTok_iff]
  constructor
  · intro hc i h
    obtain ⟨hT, hD⟩ := hc i h
    refine ⟨?_, ?_⟩
    · rintro ⟨hp, hi⟩
      exact hT (by omega)
    · intro hn
      refine hD ?_
      intro h8
      refine hn ⟨period_of_len_gt8 p ?_, by omega⟩
      rw [← hlen]
      omega
  · intro hc i h
    obtain ⟨hT, hD⟩ := hc i h
    refine ⟨?_, ?_⟩
    · intro h8
      refine hT ⟨period_of_len_gt8 p ?_, by omega⟩
      rw [← hlen]
      omega
    · intro h8
      refine hD ?_
      rintro ⟨hp, hi⟩
      exact h8 (by omega)

/-- C3: a file is a cleanup candidate iff its extension-stripped name splits
at the last `-` into the base's file stem and a token of the period's length
that is all ASCII digits except a `'T'` at index 8 for Hour/Minute; in
particular `another-20221026T1351.log` is never a candidate when the base
stem is `current`, for any period. -/
theorem c3_candidate_characterization :
    (∀ (base : PathModel) (p : Period) (name : List Char),
      isCandidate base p name = true ↔ specCandidate base p name) ∧
    (∀ p : Period, isCandidate ⟨[], some (String.toList "current.log")⟩ p
      (String.toList "another-20221026T1351.log") = false) := by
  constructor
  · intro base p name
    unfold isCandidate specCandidate
    cases hs : rsplitOnce '-' (fileStemExt name).1 with
    | none => simp
    | some st =>
        obtain ⟨stem, tok⟩ := st
        cases hbf : base.fname with
        | none => simp
        | some bn =>
            dsimp only
            by_cases hlen : tok.length = expectedLen p
            · rw [(tokenLenOk_iff p tok).mpr hlen]
              simp only [Bool.true_and, Bool.and_eq_true, decide_eq_true_eq,
                Option.some.injEq, Prod.mk.injEq]
              constructor
              · rintro ⟨hchk, hst⟩
                exact ⟨stem, tok, ⟨rfl, rfl⟩, ⟨bn, rfl, hst⟩, hlen,
                  (checkTok_iff_spec p tok hlen).mp hchk⟩
              · rintro ⟨stem', tok', ⟨h1, h2⟩, ⟨bn', hbn', hfs⟩, hlen', hchar⟩
                subst h1; subst h2
                obtain rfl : bn = bn' := hbn'
                exact ⟨(checkTok_iff_spec p tok hlen).mpr hchar, hfs⟩
            · simp only [Bool.and_eq_true, tokenLenOk_iff, decide_eq_true_eq,
                Option.some.injEq, Prod.mk.injEq]
              constructor
              · rintro ⟨⟨hl, _⟩, _⟩
                exact absurd hl hlen
              · rintro ⟨stem', tok', ⟨h1, h2⟩, _, hlen', _⟩
                subst h1; subst h2
                exact absurd hlen' hlen
  · intro p
    cases p <;> decide

/-- C6: the rotated path is the base's stem plus `-token` plus the base's
extension when one exists, the whole base file name plus `-token` when
there is no extension, and `log-token` when the base has no file name; the
token is the zero-padded per-period timestamp of the wall time. -/
theorem c6_derived_path_shape (base : PathModel) (p : Period) (dt : DateTime)
    (h : Valid dt) (hy1 : 1000 ≤ dt.year) (hy2 : dt.year ≤ 9999) :
    FileAppender.token dt p = specToken dt p ∧
    (FileAppender.derivePath base p dt).dir = base.dir ∧
    (∀ n stem ext, base.fname = some n → fileStemExt n = (stem, some ext) →
      (FileAppender.derivePath base p dt).fname =
        some (stem ++ '-' :: (FileAppender.token dt p ++ '.' :: ext))) ∧
    (∀ n, base.fname = some n → (fileStemExt n).2 = none →
      (FileAppender.derivePath base p dt).fname =
        some (n ++ '-' :: FileAppender.token dt p)) ∧
    (base.fname = none →
      (FileAppender.derivePath base p dt).fname =
        some (String.toList "log" ++ '-' :: FileAppender.token dt p)) := by
  refine ⟨token_eq_specToken dt p h hy1 hy2, ?_, ?_, ?_, ?_⟩
  · unfold FileAppender.derivePath
    rcases hbf : base.fname with _ | n
    · rfl
    · dsimp only
      rcases hfse : fileStemExt n with ⟨st, oe⟩
      cases oe <;> rfl
  · intro n stem ext hbn hfse
    unfold FileAppender.derivePath
    rw [hbn]
    dsimp only
    rw [hfse]
    simp
  · intro n hbn hfse2
    unfold FileAppender.derivePath
    rw [hbn]
    dsimp only
    rcases hfse : fileStemExt n with ⟨st, oe⟩
    rw [hfse] at hfse2
    dsimp only at hfse2
    subst hfse2
    rfl
  · intro hbf
    unfold FileAppender.derivePath
    rw [hbf]

theorem c6_derived_path_shape_witness :
    Valid ⟨2022, 10, 26, 13, 53, 0, 0⟩ ∧
    FileAppender.token ⟨2022, 10, 26, 13, 53, 0, 0⟩ .Minute =
      specToken ⟨2022, 10, 26, 13, 53, 0, 0⟩ .Minute :=
  ⟨by decide,
    (c6_derived_path_shape ⟨[], some (String.toList "log")⟩ .Minute
      ⟨2022, 10, 26, 13, 53, 0, 0⟩ (by decide) (by decide) (by decide)).1⟩

/-- An entry is deleted exactly when it survives all four filters of
`clean_expire_log`. -/
theorem mem_removedEntries (base : PathModel) (p : Period) (keep now : Int)
    (es : List (Option DirEntry)) (e : DirEntry) :
    e ∈ removedEntries base p keep now es ↔
      e ∈ es.filterMap id ∧ e.isFileOk.getD false = true ∧
      isCandidate base p e.name = true ∧ expireOld now keep e = true ∧
      e.removeOk = true := by
  simp only [removedEntries, List.mem_filter, and_assoc]

/-- C7: a candidate file is deleted iff its age is strictly greater than
`keep` (and its removal succeeds); a candidate aged exactly `keep` is not
deleted, and a candidate with unreadable modification time is skipped. -/
theorem c7_strict_age_threshold (base : PathModel) (p : Period) (keep now : Int)
    (es : List (Option DirEntry)) (e : DirEntry)
    (hf : e.isFileOk.getD false = true) (hc : isCandidate base p e.name = true) :
    (∀ m, e.modified = some m → m ≤ now →
      (e ∈ removedEntries base p keep now es ↔
        e ∈ es.filterMap id ∧ keep < now - m ∧ e.removeOk = true)) ∧
    (∀ m, e.modified = some m → now - m = keep →
      e ∉ removedEntries base p keep now es) ∧
    (e.modified = none → e ∉ removedEntries base p keep now es) := by
  refine ⟨?_, ?_, ?_⟩
  · intro m hm hmn
    rw [mem_removedEntries]
    have hexp : expireOld now keep e = (decide (keep < now - m)) := by
      unfold expireOld
      rw [hm]
      dsimp only
      rw [if_pos hmn]
    simp [hf, hc, hexp]
  · intro m hm heq hmem
    rw [mem_removedEntries] at hmem
    have hage := hmem.2.2.2.1
    unfold expireOld at hage
    rw [hm] at hage
    dsimp only at hage
    split_ifs at hage with hcond
    simp only [decide_eq_true_eq] at hage
    omega
  · intro hm hmem
    rw [mem_removedEntries] at hmem
    have hage := hmem.2.2.2.1
    unfold expireOld at hage
    rw [hm] at hage
    simp at hage

theorem c7_strict_age_threshold_witness :
    (⟨String.toList "mylog-2022.log", some true, some 0, true⟩ : DirEntry) ∈
      removedEntries ⟨[], some (String.toList "mylog.log")⟩ .Year 5 10
        [some ⟨String.toList "mylog-2022.log", some true, some 0, true⟩] :=
  ((c7_strict_age_threshold ⟨[], some (String.toList "mylog.log")⟩ .Year 5 10
      [some ⟨String.toList "mylog-2022.log", some true, some 0, true⟩]
      ⟨String.toList "mylog-2022.log", some true, some 0, true⟩
      rfl (by decide)).1 0 rfl (by decide)).mpr
    ⟨by decide, by decide, rfl⟩

/-- C4 counterexample: a failed directory enumeration is not caught — the
`unwrap` on `read_dir` panics, so the cleanup does not return a report. -/
theorem c4_counterexample :
    cleanExpireLog ⟨[], some (String.toList "mylog.log")⟩ .Day 7 100 none =
      none := rfl

/-- C4 (amended): once the directory listing itself is obtained, every
per-file error (unreadable entry, file-type or metadata error, failed
deletion) only skips that file and a report string is always produced; but
a failure of `read_dir` itself panics, failing the caller. -/
theorem c4_cleanup_nonfatal (base : PathModel) (p : Period) (keep now : Int)
    (es : List (Option DirEntry)) :
    (∃ s, cleanExpireLog base p keep now (some es) = some s) ∧
    (∀ e : DirEntry, e.modified = none →
      e ∉ removedEntries base p keep now es) ∧
    (∀ e : DirEntry, e.isFileOk = none →
      e ∉ removedEntries base p keep now es) ∧
    (∀ e : DirEntry, e.removeOk = false →
      e ∉ removedEntries base p keep now es) := by
  refine ⟨⟨_, rfl⟩, ?_, ?_, ?_⟩
  · intro e he hmem
    rw [mem_removedEntries] at hmem
    have hage := hmem.2.2.2.1
    unfold expireOld at hage
    rw [he] at hage
    simp at hage
  · intro e he hmem
    rw [mem_removedEntries] at hmem
    have hff := hmem.2.1
    rw [he] at hff
    simp at hff
  · intro e he hmem
    rw [mem_removedEntries] at hmem
    have hrm := hmem.2.2.2.2
    rw [he] at hrm
    simp at hrm

/-- C5: a write before the boundary (or with rotation disabled) performs
only the write against the current handle and, on success, returns the full
record length with the state unchanged; a write after the boundary flushes
the old handle, opens exactly one new file (flush before open), recomputes
`(start, wait)` via `until`, and writes against the new handle. -/
theorem c5_write_path (st : FileAppender) (recLen : Nat) (now : Int)
    (tmNow : DateTime) (newId : Nat) (flushOk openOk writeOk : Bool) :
    ((st.rotate = none ∨ ∃ r, st.rotate = some r ∧ now - r.start ≤ r.wait) →
      (appWrite st recLen now tmNow newId flushOk openOk writeOk).2 =
        [Ev.evWrite st.file recLen] ∧
      (writeOk = true →
        (appWrite st recLen now tmNow newId flushOk openOk writeOk).1 =
          some (st, recLen))) ∧
    (∀ r, st.rotate = some r → r.wait < now - r.start → flushOk = true →
      openOk = true →
      (appWrite st recLen now tmNow newId flushOk openOk writeOk).2 =
        Ev.evFlush st.file ::
          ((if r.expire.isSome then [Ev.evSpawnClean] else []) ++
            [Ev.evOpen (FileAppender.derivePath st.path r.period tmNow) newId,
              Ev.evWrite newId recLen]) ∧
      (writeOk = true →
        (appWrite st recLen now tmNow newId flushOk openOk writeOk).1 =
          some (⟨newId, st.path, some ⟨now,
            epochSecs (FileAppender.next tmNow r.period) - epochSecs tmNow,
            r.period, r.expire⟩, st.timezone⟩, recLen))) := by
  constructor
  · intro hfast
    rcases hfast with hnone | ⟨r, hr, hle⟩
    · unfold appWrite
      rw [hnone]
      cases writeOk <;> simp
    · unfold appWrite
      rw [hr]
      dsimp only
      rw [if_neg (by omega)]
      cases writeOk <;> simp
  · intro r hr hgt hf ho
    subst hf; subst ho
    unfold appWrite
    rw [hr]
    dsimp only
    rw [if_pos hgt]
    simp only [if_true]
    cases writeOk <;> simp [FileAppender.until]

theorem c5_write_path_witness :
    ((appWrite ⟨0, ⟨[], some (String.toList "mylog.log")⟩, none, .Utc⟩ 5 0
        ⟨2022, 1, 1, 0, 0, 0, 0⟩ 1 true true true).1 =
      some (⟨0, ⟨[], some (String.toList "mylog.log")⟩, none, .Utc⟩, 5)) ∧
    ((appWrite ⟨0, ⟨[], some (String.toList "mylog.log")⟩,
        some ⟨0, 10, .Year, none⟩, .Utc⟩ 5 11 ⟨2022, 1, 1, 0, 0, 0, 0⟩ 1
        true true true).2 =
      Ev.evFlush 0 ::
        ((if (none : Option Int).isSome then [Ev.evSpawnClean] else []) ++
          [Ev.evOpen (FileAppender.derivePath
            ⟨[], some (String.toList "mylog.log")⟩ .Year
            ⟨2022, 1, 1, 0, 0, 0, 0⟩) 1, Ev.evWrite 1 5])) :=
  ⟨((c5_write_path ⟨0, ⟨[], some (String.toList "mylog.log")⟩, none, .Utc⟩ 5 0
      ⟨2022, 1, 1, 0, 0, 0, 0⟩ 1 true true true).1 (Or.inl rfl)).2 rfl,
    ((c5_write_path ⟨0, ⟨[], some (String.toList "mylog.log")⟩,
        some ⟨0, 10, .Year, none⟩, .Utc⟩ 5 11 ⟨2022, 1, 1, 0, 0, 0, 0⟩ 1
        true true true).2 ⟨0, 10, .Year, none⟩ rfl (by decide) rfl rfl).1⟩

/-- C9: construction with rotate and expire opens the rotated file, then
runs the cleaner synchronously exactly once; a "deleted" note is written to
the new file iff the cleanup report is non-empty, and a failed note write
(or a cleaner panic, or failed open) aborts construction. -/
theorem c9_build_with_expire (path : PathModel) (period : Period)
    (expire : Int) (tz : LogTimezone) (now : Int) (tmNow : DateTime)
    (newId : Nat) (fsNow : Int) (listing : Option (List (Option DirEntry)))
    (noteOk : Bool) (msg : List Char)
    (hc : cleanExpireLog path period expire fsNow listing = some msg) :
    (buildRotateExpire path period expire tz now tmNow newId true fsNow
        listing noteOk).2 =
      [Ev.evOpen (FileAppender.derivePath path period tmNow) newId,
        Ev.evClean] ++ (if msg = [] then [] else [Ev.evNote newId]) ∧
    (Ev.evNote newId ∈ (buildRotateExpire path period expire tz now tmNow
        newId true fsNow listing noteOk).2 ↔ msg ≠ []) ∧
    (msg ≠ [] → noteOk = false →
      (buildRotateExpire path period expire tz now tmNow newId true fsNow
        listing noteOk).1 = none) ∧
    ((msg = [] ∨ noteOk = true) →
      (buildRotateExpire path period expire tz now tmNow newId true fsNow
          listing noteOk).1 =
        some ⟨newId, path, some ⟨now,
          epochSecs (FileAppender.next tmNow period) - epochSecs tmNow,
          period, some expire⟩, tz⟩) := by
  unfold buildRotateExpire
  rw [hc]
  dsimp only
  by_cases hm : msg = []
  · rw [if_pos hm, if_pos hm]
    simp [FileAppender.until, hm]
  · rw [if_neg hm, if_neg hm]
    cases noteOk <;> simp [FileAppender.until, hm]

theorem c9_build_with_expire_witness :
    (buildRotateExpire ⟨[], some (String.toList "mylog.log")⟩ .Day 7 .Utc 0
        ⟨2022, 1, 1, 0, 0, 0, 0⟩ 1 true 0 (some []) true).2 =
      [Ev.evOpen (FileAppender.derivePath ⟨[], some (String.toList "mylog.log")⟩
        .Day ⟨2022, 1, 1, 0, 0, 0, 0⟩) 1, Ev.evClean] ++
        (if ([] : List Char) = [] then [] else [Ev.evNote 1]) :=
  (c9_build_with_expire ⟨[], some (String.toList "mylog.log")⟩ .Day 7 .Utc 0
    ⟨2022, 1, 1, 0, 0, 0, 0⟩ 1 0 (some []) true [] rfl).1

end Ftlog
